import Mathlib

/-!
Verification of the `jsonpointer_flatten` Rust library (src/lib.rs).

The library flattens a JSON value into a single flat JSON object whose keys
are RFC 6901 JSON Pointer strings.  This file gives a shallow embedding of
the library's data model and operations and proves the specified properties
about them.

Embedding notes:
* `serde_json::Value` is embedded as the mutual inductive family
  `Value` / `ValueList` / `FieldList` (`ValueList` plays the role of
  `Vec<Value>`, `FieldList` the role of the ordered `Map<String, Value>`
  object payload; the map's key-uniqueness invariant is expressed separately
  by the decidable predicate `wfV`).
* `str::replace` is embedded at the character-list level: `replaceC` for the
  one-character patterns (`"~"`, `"/"`) and `replace2` for the two-character
  patterns (`"~1"`, `"~0"`) — in both cases replacing every non-overlapping
  occurrence scanning left to right, exactly as `str::replace` does for
  those patterns.
* The accumulator map built by `process` (`target.insert(...)` on a map) is
  embedded as an insertion-ordered association list with `mapInsert`
  replacing the value in place when the key is already present and
  appending otherwise; `Vec::push` / `Vec::pop` on the route stack are
  list append and `List.dropLast` (`popRoute`), so a pop on an empty route
  is a no-op exactly as `Vec::pop` is.
* `Number` payloads are embedded abstractly as `Int`; the flattener only
  ever clones them, so nothing depends on the numeric representation.
-/

mutual

/-- Embedding of `serde_json::Value`: Null, Bool, Number, String, Array, Object. -/
inductive Value where
  | null : Value
  | bool : Bool → Value
  | num : Int → Value
  | str : String → Value
  | arr : ValueList → Value
  | obj : FieldList → Value
deriving DecidableEq

/-- Embedding of `Vec<Value>` (the array payload). -/
inductive ValueList where
  | nil : ValueList
  | cons : Value → ValueList → ValueList
deriving DecidableEq

/-- Embedding of the ordered `Map<String, Value>` object payload. -/
inductive FieldList where
  | nil : FieldList
  | cons : String → Value → FieldList → FieldList
deriving DecidableEq

end

/-- Model of `str::replace` for a one-character pattern `c`: every
occurrence of `c` is replaced by `rep`, scanning left to right. -/
def replaceC (c : Char) (rep : List Char) : List Char → List Char
  | [] => []
  | x :: rest => if x = c then rep ++ replaceC c rep rest else x :: replaceC c rep rest

/-- Model of `str::replace` for a two-character pattern `c₁c₂`: every
non-overlapping occurrence is replaced by `rep`, scanning left to right. -/
def replace2 (c₁ c₂ : Char) (rep : List Char) : List Char → List Char
  | [] => []
  | [x] => [x]
  | x :: y :: rest =>
      if x = c₁ ∧ y = c₂ then rep ++ replace2 c₁ c₂ rep rest
      else x :: replace2 c₁ c₂ rep (y :: rest)

/-- Embedding of `escape` (src/lib.rs:120-122):
`value.replace("~", "~0").replace("/", "~1")`. -/
def escape (value : String) : String :=
  ⟨replaceC '/' ['~', '1'] (replaceC '~' ['~', '0'] value.data)⟩

/-- Embedding of `unescape` (src/lib.rs:124-127):
`value.replace("~1", "/").replace("~0", "~")`. -/
def unescape (value : String) : String :=
  ⟨replace2 '~' '0' ['~'] (replace2 '~' '1' ['/'] value.data)⟩

/-- Embedding of the `PointerMap` type alias (`Vec<String>`), the route stack. -/
abbrev PointerMap := List String

/-- Embedding of the `ValueMap` accumulator (`Map<String, Value>`) as an
insertion-ordered association list. -/
abbrev ValueMap := List (String × Value)

/-- Embedding of `route.pop()` with the result discarded: removes the last
pushed segment; a pop on an empty route is a no-op (`Vec::pop` returns
`None` and mutates nothing). -/
def popRoute (r : PointerMap) : PointerMap := r.dropLast

/-- Embedding of `target.insert(k, v)` on the accumulator map: replace the
value in place when the key is present, append a new entry otherwise. -/
def mapInsert (m : ValueMap) (k : String) (v : Value) : ValueMap :=
  if m.any (fun p => p.1 = k) then m.map (fun p => if p.1 = k then (k, v) else p)
  else m ++ [(k, v)]

mutual

/-- Embedding of `process` (src/lib.rs:88-118): insert one entry at
`route.concat()` for the visited node (the value itself for scalars/null,
an empty placeholder `[]`/`{}` for containers), recurse into children with
`format!("/{}", idx)` resp. `format!("/{}", escape(key))` pushed onto the
route, and finally `route.pop()`. -/
def process : Value → PointerMap → ValueMap → PointerMap × ValueMap
  | .null, route, target => (popRoute route, mapInsert target (String.join route) .null)
  | .bool b, route, target => (popRoute route, mapInsert target (String.join route) (.bool b))
  | .num n, route, target => (popRoute route, mapInsert target (String.join route) (.num n))
  | .str s, route, target => (popRoute route, mapInsert target (String.join route) (.str s))
  | .arr l, route, target =>
      let step := processArr l 0 route (mapInsert target (String.join route) (.arr .nil))
      (popRoute step.1, step.2)
  | .obj f, route, target =>
      let step := processObj f route (mapInsert target (String.join route) (.obj .nil))
      (popRoute step.1, step.2)

/-- The `arr.iter().enumerate().for_each(...)` loop of `process`. -/
def processArr : ValueList → Nat → PointerMap → ValueMap → PointerMap × ValueMap
  | .nil, _, route, target => (route, target)
  | .cons v rest, idx, route, target =>
      let step := process v (route ++ ["/" ++ toString idx]) target
      processArr rest (idx + 1) step.1 step.2

/-- The `for (key, val) in obj` loop of `process`. -/
def processObj : FieldList → PointerMap → ValueMap → PointerMap × ValueMap
  | .nil, route, target => (route, target)
  | .cons k v rest, route, target =>
      let step := process v (route ++ ["/" ++ escape k]) target
      processObj rest step.1 step.2

end

/-- Repackage the accumulator association list as the object payload,
mirroring that in the source `ValueMap` is itself the `Value::Object`
payload type. -/
def toFields : ValueMap → FieldList
  | [] => .nil
  | (k, v) :: rest => .cons k v (toFields rest)

/-- Embedding of `from_json` (src/lib.rs:52-59): run `process` on an empty
route and empty accumulator and wrap the result in `Value::Object`. -/
def from_json (value : Value) : Value :=
  Value.obj (toFields (process value [] []).2)

/-- The flat accumulator map produced by `from_json` before wrapping. -/
def flatMap (value : Value) : ValueMap := (process value [] []).2

/-- Lookup in the flat map (the map's `get`). -/
def mapGet (m : ValueMap) (k : String) : Option Value :=
  (m.find? (fun q => q.1 = k)).map (fun q => q.2)

/-- The keys of the flat map, in insertion order. -/
def keysOf (m : ValueMap) : List String := m.map (fun q => q.1)

mutual

/-- Pure pre-order list of `(pointer, original subvalue)` pairs for every
node of the tree, with pointers built exactly as `process` builds them. -/
def nodeList : Value → String → List (String × Value)
  | .null, p => [(p, .null)]
  | .bool b, p => [(p, .bool b)]
  | .num n, p => [(p, .num n)]
  | .str s, p => [(p, .str s)]
  | .arr l, p => (p, .arr l) :: nodeListA l 0 p
  | .obj f, p => (p, .obj f) :: nodeListF f p

/-- `nodeList` over the elements of an array, starting at index `i`. -/
def nodeListA : ValueList → Nat → String → List (String × Value)
  | .nil, _, _ => []
  | .cons v rest, idx, p => nodeList v (p ++ "/" ++ toString idx) ++ nodeListA rest (idx + 1) p

/-- `nodeList` over the members of an object, in member order. -/
def nodeListF : FieldList → String → List (String × Value)
  | .nil, _ => []
  | .cons k v rest, p => nodeList v (p ++ "/" ++ escape k) ++ nodeListF rest p

end

/-- The value `process` stores for a node: the node itself for
scalars/null, the empty placeholder for containers. -/
def flatForm : Value → Value
  | .arr _ => .arr .nil
  | .obj _ => .obj .nil
  | v => v

/-- The flat-map entries produced for the subtree at prefix `p`, in
insertion order. -/
def entries (v : Value) (p : String) : List (String × Value) :=
  (nodeList v p).map (fun q => (q.1, flatForm q.2))

/-- Fold `mapInsert` over a list of entries. -/
def insertEntries (m : ValueMap) (es : List (String × Value)) : ValueMap :=
  es.foldl (fun t q => mapInsert t q.1 q.2) m

/-- Reference decimal representation of a natural number, most significant
digit first. -/
def decRepr (n : Nat) : List Char :=
  if n < 10 then [Nat.digitChar n]
  else decRepr (n / 10) ++ [Nat.digitChar (n % 10)]
decreasing_by exact Nat.div_lt_self (by omega) (by omega)

/-- Numeric value of a digit string, folded from an accumulator. -/
def valFrom (i : Nat) (cs : List Char) : Nat :=
  cs.foldl (fun a c => a * 10 + (c.toNat - 48)) i

/-- Boolean string-list membership. -/
def memB (k : String) : List String → Bool
  | [] => false
  | x :: rest => (k == x) || memB k rest

/-- Boolean test that a list of strings has no duplicates. -/
def distinct : List String → Bool
  | [] => true
  | k :: rest => !(memB k rest) && distinct rest

/-- The member keys of an object payload, in member order. -/
def fieldKeys : FieldList → List String
  | .nil => []
  | .cons k _ rest => k :: fieldKeys rest

mutual

/-- Well-formedness of an embedded value: every object in the tree has
pairwise-distinct member keys.  This is the invariant `serde_json`'s
`Map<String, Value>` maintains structurally and which the association-list
embedding of the object payload states explicitly. -/
def wfV : Value → Bool
  | .null => true
  | .bool _ => true
  | .num _ => true
  | .str _ => true
  | .arr l => wfA l
  | .obj f => distinct (fieldKeys f) && wfF f

/-- `wfV` over array elements. -/
def wfA : ValueList → Bool
  | .nil => true
  | .cons v rest => wfV v && wfA rest

/-- `wfV` over object member values. -/
def wfF : FieldList → Bool
  | .nil => true
  | .cons _ v rest => wfV v && wfF rest

end

mutual

/-- Number of nodes of a value tree (every scalar, null, array and object
node counts once). -/
def nodeCount : Value → Nat
  | .null => 1
  | .bool _ => 1
  | .num _ => 1
  | .str _ => 1
  | .arr l => 1 + nodeCountA l
  | .obj f => 1 + nodeCountF f

/-- `nodeCount` summed over array elements. -/
def nodeCountA : ValueList → Nat
  | .nil => 0
  | .cons v rest => nodeCount v + nodeCountA rest

/-- `nodeCount` summed over object member values. -/
def nodeCountF : FieldList → Nat
  | .nil => 0
  | .cons _ v rest => nodeCount v + nodeCountF rest

end

/-- A character list containing no `/`. -/
def SlashFree (s : List Char) : Prop := '/' ∉ s

/-- Shape of the part of a pointer string below some prefix: empty, or a
`/`-led slash-free segment followed by another such tail. -/
inductive GoodT : List Char → Prop where
  | nil : GoodT []
  | cons (seg rest : List Char) : SlashFree seg → GoodT rest → GoodT ('/' :: (seg ++ rest))

/-- Entry `a` is not at a pointer strictly below entry `b`'s pointer. -/
def NotDescKey (a b : String × Value) : Prop :=
  ∀ r : List Char, a.1.data ≠ b.1.data ++ '/' :: r

/-- A flat entry value: a scalar/null, or an empty container placeholder. -/
def FlatVal : Value → Prop
  | .arr l => l = .nil
  | .obj f => f = .nil
  | _ => True

/-- Modelled from the spec: the external JSON text parser
(`serde_json::from_str`, out of scope of this repository) is abstracted as
an arbitrary function from text to either a parse error or a parsed
`Value`.  `from_str` itself is the embedding of src/lib.rs:27-29:
`Ok(from_json(&serde_json::from_str(s)?))`, i.e. the error is propagated
unmodified and on success `from_json` is applied to the parsed value. -/
def from_str {ε : Type} (parse : String → Except ε Value) (s : String) : Except ε Value :=
  (parse s).map from_json

/-- Modelled from the spec: a toy instance of the abstract parser used to
witness the parser hypotheses (it parses exactly the text `"null"`). -/
def parseToy : String → Except String Value :=
  fun u => if u = "null" then .ok .null else .error "ParseError"

/-- The reverse substitution order the spec warns about:
`/` → `~1` applied before `~` → `~0` (for comparison with `escape`). -/
def escapeRevOrder (value : String) : String :=
  ⟨replaceC '~' ['~', '0'] (replaceC '/' ['~', '1'] value.data)⟩

/-- Scenario B input: the bare array `[true, 42]`. -/
def exB : Value := .arr (.cons (.bool true) (.cons (.num 42) .nil))

/-- Scenario C input: the object with keys `"a/b"`, `"m~n"`, `" "`. -/
def exC : Value :=
  .obj (.cons "a/b" (.num 1) (.cons "m~n" (.num 8) (.cons " " (.num 7) .nil)))

/-- A small nested example value used by the witnesses. -/
def exW : Value := .obj (.cons "a" (.arr (.cons (.num 1) .nil)) (.cons "b" Value.null .nil))

theorem insertEntries_append (m : ValueMap) (a b : List (String × Value)) :
    insertEntries m (a ++ b) = insertEntries (insertEntries m a) b := by
  simp [insertEntries, List.foldl_append]

theorem join_append_single (route : List String) (s : String) :
    String.join (route ++ [s]) = String.join route ++ s := by
  simp [String.join, List.foldl_append]

mutual

theorem process_eq (v : Value) (route : PointerMap) (target : ValueMap) :
    process v route target =
      (popRoute route, insertEntries target (entries v (String.join route))) := by
  cases v with
  | null => simp [process, entries, nodeList, insertEntries, flatForm]
  | bool b => simp [process, entries, nodeList, insertEntries, flatForm]
  | num n => simp [process, entries, nodeList, insertEntries, flatForm]
  | str s => simp [process, entries, nodeList, insertEntries, flatForm]
  | arr l =>
      simp only [process, processArr_eq, entries, nodeList, List.map_cons, flatForm]
      simp [insertEntries]
  | obj f =>
      simp only [process, processObj_eq, entries, nodeList, List.map_cons, flatForm]
      simp [insertEntries]

theorem processArr_eq (l : ValueList) (idx : Nat) (route : PointerMap) (target : ValueMap) :
    processArr l idx route target =
      (route, insertEntries target ((nodeListA l idx (String.join route)).map
        (fun q => (q.1, flatForm q.2)))) := by
  cases l with
  | nil => simp [processArr, nodeListA, insertEntries]
  | cons v rest =>
      simp only [processArr, process_eq, processArr_eq, nodeListA, List.map_append]
      simp [popRoute, join_append_single, insertEntries_append, entries, String.append_assoc]

theorem processObj_eq (f : FieldList) (route : PointerMap) (target : ValueMap) :
    processObj f route target =
      (route, insertEntries target ((nodeListF f (String.join route)).map
        (fun q => (q.1, flatForm q.2)))) := by
  cases f with
  | nil => simp [processObj, nodeListF, insertEntries]
  | cons k v rest =>
      simp only [processObj, process_eq, processObj_eq, nodeListF, List.map_append]
      simp [popRoute, join_append_single, insertEntries_append, entries, String.append_assoc]

end

theorem from_json_eq (v : Value) :
    from_json v = Value.obj (toFields (insertEntries [] (entries v ""))) := by
  simp [from_json, process_eq, popRoute]
  rfl

theorem replace2_cons_ne (c₁ c₂ : Char) (rep : List Char) (c : Char) (t : List Char)
    (h : c ≠ c₁) : replace2 c₁ c₂ rep (c :: t) = c :: replace2 c₁ c₂ rep t := by
  cases t with
  | nil => simp [replace2]
  | cons y rest => simp [replace2, h]

theorem unescape_escape_data (s : List Char) :
    replace2 '~' '0' ['~'] (replace2 '~' '1' ['/']
      (replaceC '/' ['~', '1'] (replaceC '~' ['~', '0'] s))) = s := by
  induction s with
  | nil => rfl
  | cons c t ih =>
      by_cases h1 : c = '~'
      · subst h1
        rw [show replaceC '~' ['~', '0'] ('~' :: t) = '~' :: '0' :: replaceC '~' ['~', '0'] t by
          simp [replaceC]]
        rw [show ∀ X, replaceC '/' ['~', '1'] ('~' :: '0' :: X) =
            '~' :: '0' :: replaceC '/' ['~', '1'] X by intro X; simp [replaceC]]
        rw [show ∀ X, replace2 '~' '1' ['/'] ('~' :: '0' :: X) =
            '~' :: '0' :: replace2 '~' '1' ['/'] X by
          intro X
          rw [show replace2 '~' '1' ['/'] ('~' :: '0' :: X) =
            '~' :: replace2 '~' '1' ['/'] ('0' :: X) by simp [replace2]]
          rw [replace2_cons_ne _ _ _ _ _ (by decide : ('0' : Char) ≠ '~')]]
        rw [show ∀ X, replace2 '~' '0' ['~'] ('~' :: '0' :: X) =
            '~' :: replace2 '~' '0' ['~'] X by intro X; simp [replace2]]
        rw [ih]
      · by_cases h2 : c = '/'
        · subst h2
          rw [show replaceC '~' ['~', '0'] ('/' :: t) = '/' :: replaceC '~' ['~', '0'] t by
            simp [replaceC]]
          rw [show ∀ X, replaceC '/' ['~', '1'] ('/' :: X) =
              '~' :: '1' :: replaceC '/' ['~', '1'] X by intro X; simp [replaceC]]
          rw [show ∀ X, replace2 '~' '1' ['/'] ('~' :: '1' :: X) =
              '/' :: replace2 '~' '1' ['/'] X by intro X; simp [replace2]]
          rw [replace2_cons_ne _ _ _ _ _ (by decide : ('/' : Char) ≠ '~')]
          rw [ih]
        · rw [show replaceC '~' ['~', '0'] (c :: t) = c :: replaceC '~' ['~', '0'] t by
            simp [replaceC, h1]]
          rw [show replaceC '/' ['~', '1'] (c :: replaceC '~' ['~', '0'] t) =
              c :: replaceC '/' ['~', '1'] (replaceC '~' ['~', '0'] t) by
            simp [replaceC, h2]]
          rw [replace2_cons_ne _ _ _ _ _ h1, replace2_cons_ne _ _ _ _ _ h1, ih]

theorem unescape_escape (k : String) : unescape (escape k) = k := by
  cases k with
  | mk data => simp [escape, unescape, unescape_escape_data]

theorem decRepr_lt (n : Nat) (h : n < 10) : decRepr n = [Nat.digitChar n] := by
  rw [decRepr, if_pos h]

theorem decRepr_ge (n : Nat) (h : ¬ n < 10) :
    decRepr n = decRepr (n / 10) ++ [Nat.digitChar (n % 10)] := by
  rw [decRepr, if_neg h]

theorem valFrom_append (i : Nat) (a b : List Char) :
    valFrom i (a ++ b) = valFrom (valFrom i a) b := by
  simp [valFrom, List.foldl_append]

theorem digitChar_val (d : Nat) (h : d < 10) : (Nat.digitChar d).toNat - 48 = d := by
  interval_cases d <;> decide

theorem valFrom_decRepr (n : Nat) : valFrom 0 (decRepr n) = n := by
  induction n using Nat.strong_induction_on with
  | _ n ih =>
      by_cases h : n < 10
      · rw [decRepr, if_pos h]
        simp [valFrom, digitChar_val n h]
      · rw [decRepr, if_neg h]
        rw [valFrom_append, ih (n / 10) (Nat.div_lt_self (by omega) (by omega))]
        simp [valFrom, digitChar_val (n % 10) (Nat.mod_lt n (by omega))]
        omega

theorem decRepr_inj (m n : Nat) (h : decRepr m = decRepr n) : m = n := by
  have := valFrom_decRepr m
  rw [h, valFrom_decRepr] at this
  omega

theorem decRepr_no_slash (n : Nat) (c : Char) (hc : c ∈ decRepr n) : c ≠ '/' := by
  induction n using Nat.strong_induction_on with
  | _ n ih =>
      by_cases h : n < 10
      · rw [decRepr, if_pos h] at hc
        simp at hc
        subst hc
        interval_cases n <;> decide
      · rw [decRepr, if_neg h] at hc
        rcases List.mem_append.mp hc with h1 | h1
        · exact ih (n / 10) (Nat.div_lt_self (by omega) (by omega)) h1
        · simp at h1
          subst h1
          have : n % 10 < 10 := Nat.mod_lt n (by omega)
          generalize hd : n % 10 = d at this
          interval_cases d <;> decide

theorem toDigitsCore_eq_decRepr (fuel n : Nat) (ds : List Char) (h : n < fuel) :
    Nat.toDigitsCore 10 fuel n ds = decRepr n ++ ds := by
  induction fuel generalizing n ds with
  | zero => omega
  | succ fuel ih =>
      rw [Nat.toDigitsCore]
      by_cases h10 : n < 10
      · have : n / 10 = 0 := Nat.div_eq_of_lt h10
        simp only [this, if_pos rfl]
        rw [decRepr_lt n h10, Nat.mod_eq_of_lt h10]
        rfl
      · have hne : ¬ n / 10 = 0 := by
          intro hz
          have := Nat.div_eq_of_lt (a := n) (b := 10)
          omega
        simp only [if_neg hne]
        rw [ih (n / 10) _ (by
          have h1 : n / 10 < n := Nat.div_lt_self (by omega) (by omega)
          omega)]
        rw [decRepr_ge n h10]
        simp

theorem repr_data (n : Nat) : (Nat.repr n).data = decRepr n := by
  rw [Nat.repr, Nat.toDigits, toDigitsCore_eq_decRepr (n + 1) n [] (by omega)]
  simp [List.asString]

theorem nat_repr_inj (m n : Nat) (h : Nat.repr m = Nat.repr n) : m = n := by
  apply decRepr_inj
  rw [← repr_data, ← repr_data, h]

theorem nat_repr_no_slash (n : Nat) (c : Char) (hc : c ∈ (Nat.repr n).data) : c ≠ '/' := by
  rw [repr_data] at hc
  exact decRepr_no_slash n c hc

theorem toString_nat_eq (n : Nat) : (toString n : String) = Nat.repr n := rfl

theorem replaceC_no_pat (c : Char) (rep : List Char) (h : c ∉ rep) (l : List Char) :
    c ∉ replaceC c rep l := by
  induction l with
  | nil => simp [replaceC]
  | cons x t ih =>
      by_cases hx : x = c
      · subst hx
        simp only [replaceC, if_pos rfl]
        intro hmem
        rcases List.mem_append.mp hmem with hh | hh
        · exact h hh
        · exact ih hh
      · simp only [replaceC, if_neg hx]
        intro hmem
        rcases List.mem_cons.mp hmem with hh | hh
        · exact hx hh.symm
        · exact ih hh

theorem escape_no_slash (k : String) (c : Char) (hc : c ∈ (escape k).data) : c ≠ '/' := by
  intro heq
  subst heq
  exact replaceC_no_pat '/' ['~', '1'] (by decide) _ hc

theorem escape_inj (a b : String) (h : escape a = escape b) : a = b := by
  have := congrArg unescape h
  rwa [unescape_escape, unescape_escape] at this

theorem goodT_shape (t : List Char) (h : GoodT t) : t = [] ∨ ∃ u, t = '/' :: u := by
  cases h with
  | nil => exact Or.inl rfl
  | cons seg rest hs hr => exact Or.inr ⟨seg ++ rest, rfl⟩

theorem seg_split_unique (s₁ t₁ s₂ t₂ : List Char) (h : s₁ ++ t₁ = s₂ ++ t₂)
    (f₁ : SlashFree s₁) (f₂ : SlashFree s₂)
    (g₁ : t₁ = [] ∨ ∃ u, t₁ = '/' :: u) (g₂ : t₂ = [] ∨ ∃ u, t₂ = '/' :: u) :
    s₁ = s₂ ∧ t₁ = t₂ := by
  induction s₁ generalizing s₂ with
  | nil =>
      cases s₂ with
      | nil => simpa using h
      | cons c s₂' =>
          exfalso
          simp only [List.nil_append] at h
          rcases g₁ with hg | ⟨u, hu⟩
          · rw [hg] at h
            exact List.cons_ne_nil c (s₂' ++ t₂) h.symm
          · rw [hu] at h
            have : c = '/' := (List.cons.injEq _ _ _ _ ▸ h).1.symm
            exact f₂ (this ▸ List.mem_cons_self c s₂')
  | cons c s₁' ih =>
      cases s₂ with
      | nil =>
          exfalso
          simp only [List.nil_append] at h
          rcases g₂ with hg | ⟨u, hu⟩
          · rw [hg] at h
            exact List.cons_ne_nil c (s₁' ++ t₁) h
          · rw [hu] at h
            have : c = '/' := (List.cons.injEq _ _ _ _ ▸ h).1
            exact f₁ (this ▸ List.mem_cons_self c s₁')
      | cons c₂ s₂' =>
          simp only [List.cons_append, List.cons.injEq] at h
          obtain ⟨hc, ht⟩ := h
          have f₁' : SlashFree s₁' := fun hm => f₁ (List.mem_cons_of_mem c hm)
          have f₂' : SlashFree s₂' := fun hm => f₂ (List.mem_cons_of_mem c₂ hm)
          obtain ⟨hs, htt⟩ := ih s₂' ht f₁' f₂' -- g₁ g₂ implicit
          exact ⟨by rw [hc, hs], htt⟩

theorem first_slash_split (x₁ y₁ x₂ y₂ : List Char) (h : x₁ ++ '/' :: y₁ = x₂ ++ '/' :: y₂)
    (f₁ : SlashFree x₁) (f₂ : SlashFree x₂) : x₁ = x₂ ∧ y₁ = y₂ := by
  have := seg_split_unique x₁ ('/' :: y₁) x₂ ('/' :: y₂) h f₁ f₂
    (Or.inr ⟨y₁, rfl⟩) (Or.inr ⟨y₂, rfl⟩)
  exact ⟨this.1, by simpa using this.2⟩

theorem last_slash_split (a s b t : List Char) (h : a ++ '/' :: s = b ++ '/' :: t)
    (fs : SlashFree s) (ft : SlashFree t) : a = b ∧ s = t := by
  have hrev : s.reverse ++ '/' :: a.reverse = t.reverse ++ '/' :: b.reverse := by
    have := congrArg List.reverse h
    simpa [List.reverse_append] using this
  have frs : SlashFree s.reverse := fun hm => fs (List.mem_reverse.mp hm)
  have frt : SlashFree t.reverse := fun hm => ft (List.mem_reverse.mp hm)
  obtain ⟨h1, h2⟩ := first_slash_split _ _ _ _ hrev frs frt
  constructor
  · have := congrArg List.reverse h2
    simpa using this
  · have := congrArg List.reverse h1
    simpa using this

theorem memB_iff (k : String) (l : List String) : memB k l = true ↔ k ∈ l := by
  induction l with
  | nil => simp [memB]
  | cons x rest ih => simp [memB, ih]

theorem repr_slashFree (n : Nat) : SlashFree (Nat.repr n).data := by
  intro hmem
  exact nat_repr_no_slash n '/' hmem rfl

theorem escape_slashFree (k : String) : SlashFree (escape k).data := by
  intro hmem
  exact escape_no_slash k '/' hmem rfl

mutual

theorem ks_v (v : Value) (p : String) (q : String × Value) (hq : q ∈ nodeList v p) :
    ∃ t, GoodT t ∧ q.1.data = p.data ++ t := by
  cases v with
  | null => simp only [nodeList, List.mem_singleton] at hq; exact ⟨[], .nil, by simp [hq]⟩
  | bool b => simp only [nodeList, List.mem_singleton] at hq; exact ⟨[], .nil, by simp [hq]⟩
  | num n => simp only [nodeList, List.mem_singleton] at hq; exact ⟨[], .nil, by simp [hq]⟩
  | str s => simp only [nodeList, List.mem_singleton] at hq; exact ⟨[], .nil, by simp [hq]⟩
  | arr l =>
      rw [nodeList] at hq
      rcases List.mem_cons.mp hq with h | h
      · exact ⟨[], .nil, by simp [h]⟩
      · obtain ⟨j, t, _, ht, hdata⟩ := ks_a l 0 p q h
        exact ⟨'/' :: ((Nat.repr j).data ++ t), .cons _ _ (repr_slashFree j) ht, hdata⟩
  | obj f =>
      rw [nodeList] at hq
      rcases List.mem_cons.mp hq with h | h
      · exact ⟨[], .nil, by simp [h]⟩
      · obtain ⟨k, t, _, ht, hdata⟩ := ks_f f p q h
        exact ⟨'/' :: ((escape k).data ++ t), .cons _ _ (escape_slashFree k) ht, hdata⟩

theorem ks_a (l : ValueList) (i : Nat) (p : String) (q : String × Value)
    (hq : q ∈ nodeListA l i p) :
    ∃ j t, i ≤ j ∧ GoodT t ∧ q.1.data = p.data ++ '/' :: ((Nat.repr j).data ++ t) := by
  cases l with
  | nil => simp [nodeListA] at hq
  | cons v rest =>
      rw [nodeListA] at hq
      rcases List.mem_append.mp hq with h | h
      · obtain ⟨t, ht, hdata⟩ := ks_v v (p ++ "/" ++ toString i) q h
        refine ⟨i, t, Nat.le_refl i, ht, ?_⟩
        rw [hdata]
        simp [toString_nat_eq, List.append_assoc]
      · obtain ⟨j, t, hij, ht, hdata⟩ := ks_a rest (i + 1) p q h
        exact ⟨j, t, by omega, ht, hdata⟩

theorem ks_f (f : FieldList) (p : String) (q : String × Value) (hq : q ∈ nodeListF f p) :
    ∃ k t, k ∈ fieldKeys f ∧ GoodT t ∧ q.1.data = p.data ++ '/' :: ((escape k).data ++ t) := by
  cases f with
  | nil => simp [nodeListF] at hq
  | cons k v rest =>
      rw [nodeListF] at hq
      rcases List.mem_append.mp hq with h | h
      · obtain ⟨t, ht, hdata⟩ := ks_v v (p ++ "/" ++ escape k) q h
        refine ⟨k, t, by simp [fieldKeys], ht, ?_⟩
        rw [hdata]
        simp [List.append_assoc]
      · obtain ⟨k', t, hmem, ht, hdata⟩ := ks_f rest p q h
        exact ⟨k', t, by simp [fieldKeys, hmem], ht, hdata⟩

end

theorem goodT_append_slash (t r : List Char) (h : GoodT t) :
    t ++ '/' :: r = [] ∨ ∃ u, t ++ '/' :: r = '/' :: u := by
  rcases goodT_shape t h with h0 | ⟨u, hu⟩
  · subst h0; exact Or.inr ⟨r, rfl⟩
  · subst hu; exact Or.inr ⟨u ++ '/' :: r, rfl⟩

theorem block_sep (p : String) (s₁ s₂ t₁ t₂ : List Char)
    (h : p.data ++ '/' :: (s₁ ++ t₁) = p.data ++ '/' :: (s₂ ++ t₂))
    (f₁ : SlashFree s₁) (f₂ : SlashFree s₂)
    (g₁ : t₁ = [] ∨ ∃ u, t₁ = '/' :: u) (g₂ : t₂ = [] ∨ ∃ u, t₂ = '/' :: u) :
    s₁ = s₂ ∧ t₁ = t₂ := by
  have h1 : s₁ ++ t₁ = s₂ ++ t₂ := by
    have := List.append_inj_right h rfl
    exact List.cons.inj this |>.2
  exact seg_split_unique s₁ t₁ s₂ t₂ h1 f₁ f₂ g₁ g₂

theorem child_prefix_arr (p : String) (i : Nat) :
    (p ++ "/" ++ toString i).data = p.data ++ '/' :: (Nat.repr i).data := by
  simp [toString_nat_eq]

theorem child_prefix_obj (p : String) (k : String) :
    (p ++ "/" ++ escape k).data = p.data ++ '/' :: (escape k).data := by
  simp

mutual

theorem nd_v (v : Value) (p : String) (hwf : wfV v = true) :
    ((nodeList v p).map (fun q => q.1)).Nodup := by
  cases v with
  | null => simp [nodeList]
  | bool b => simp [nodeList]
  | num n => simp [nodeList]
  | str s => simp [nodeList]
  | arr l =>
      rw [nodeList, List.map_cons, List.nodup_cons]
      refine ⟨?_, nd_a l 0 p (by simpa [wfV] using hwf)⟩
      intro hmem
      obtain ⟨q, hq, hq1⟩ := List.mem_map.mp hmem
      obtain ⟨j, t, _, _, hdata⟩ := ks_a l 0 p q hq
      rw [hq1] at hdata
      have := congrArg List.length hdata
      simp at this
  | obj f =>
      rw [nodeList, List.map_cons, List.nodup_cons]
      rw [wfV, Bool.and_eq_true] at hwf
      refine ⟨?_, nd_f f p hwf.2 hwf.1⟩
      intro hmem
      obtain ⟨q, hq, hq1⟩ := List.mem_map.mp hmem
      obtain ⟨k, t, _, _, hdata⟩ := ks_f f p q hq
      rw [hq1] at hdata
      have := congrArg List.length hdata
      simp at this

theorem nd_a (l : ValueList) (i : Nat) (p : String) (hwf : wfA l = true) :
    ((nodeListA l i p).map (fun q => q.1)).Nodup := by
  cases l with
  | nil => simp [nodeListA]
  | cons v rest =>
      rw [wfA, Bool.and_eq_true] at hwf
      rw [nodeListA, List.map_append]
      refine List.Nodup.append (nd_v v _ hwf.1) (nd_a rest (i + 1) p hwf.2) ?_
      intro key hk1 hk2
      obtain ⟨q, hq, hq1⟩ := List.mem_map.mp hk1
      obtain ⟨q₂, hq₂, hq₂1⟩ := List.mem_map.mp hk2
      obtain ⟨ta, hta, hda⟩ := ks_v v _ q hq
      obtain ⟨j, tb, hj, htb, hdb⟩ := ks_a rest (i + 1) p q₂ hq₂
      rw [child_prefix_arr] at hda
      simp only [List.cons_append, List.append_assoc] at hda
      have hcollide : p.data ++ '/' :: ((Nat.repr i).data ++ ta) =
          p.data ++ '/' :: ((Nat.repr j).data ++ tb) := by
        rw [← hda, ← hdb, hq1, hq₂1]
      obtain ⟨hseg, _⟩ := block_sep p _ _ _ _ hcollide (repr_slashFree i) (repr_slashFree j)
        (goodT_shape ta hta) (goodT_shape tb htb)
      have : i = j := nat_repr_inj i j (String.ext hseg)
      omega

theorem nd_f (f : FieldList) (p : String) (hwf : wfF f = true)
    (hdis : distinct (fieldKeys f) = true) :
    ((nodeListF f p).map (fun q => q.1)).Nodup := by
  cases f with
  | nil => simp [nodeListF]
  | cons k v rest =>
      rw [wfF, Bool.and_eq_true] at hwf
      rw [fieldKeys, distinct, Bool.and_eq_true, Bool.not_eq_true'] at hdis
      rw [nodeListF, List.map_append]
      refine List.Nodup.append (nd_v v _ hwf.1) (nd_f rest p hwf.2 hdis.2) ?_
      intro key hk1 hk2
      obtain ⟨q, hq, hq1⟩ := List.mem_map.mp hk1
      obtain ⟨q₂, hq₂, hq₂1⟩ := List.mem_map.mp hk2
      obtain ⟨ta, hta, hda⟩ := ks_v v _ q hq
      obtain ⟨k', tb, hk', htb, hdb⟩ := ks_f rest p q₂ hq₂
      rw [child_prefix_obj] at hda
      simp only [List.cons_append, List.append_assoc] at hda
      have hcollide : p.data ++ '/' :: ((escape k).data ++ ta) =
          p.data ++ '/' :: ((escape k').data ++ tb) := by
        rw [← hda, ← hdb, hq1, hq₂1]
      obtain ⟨hseg, _⟩ := block_sep p _ _ _ _ hcollide (escape_slashFree k) (escape_slashFree k')
        (goodT_shape ta hta) (goodT_shape tb htb)
      have : k = k' := escape_inj k k' (String.ext hseg)
      subst this
      have : memB k (fieldKeys rest) = true := (memB_iff k (fieldKeys rest)).mpr hk'
      rw [hdis.1] at this
      exact Bool.false_ne_true this

end

mutual

theorem pw_v (v : Value) (p : String) (hwf : wfV v = true) :
    (nodeList v p).Pairwise NotDescKey := by
  cases v with
  | null => simp [nodeList]
  | bool b => simp [nodeList]
  | num n => simp [nodeList]
  | str s => simp [nodeList]
  | arr l =>
      rw [nodeList, List.pairwise_cons]
      refine ⟨?_, pw_a l 0 p (by simpa [wfV] using hwf)⟩
      intro b hb r hr
      obtain ⟨j, t, _, _, hdata⟩ := ks_a l 0 p b hb
      simp only [hdata] at hr
      have := congrArg List.length hr
      simp at this
  | obj f =>
      rw [wfV, Bool.and_eq_true] at hwf
      rw [nodeList, List.pairwise_cons]
      refine ⟨?_, pw_f f p hwf.2 hwf.1⟩
      intro b hb r hr
      obtain ⟨k, t, _, _, hdata⟩ := ks_f f p b hb
      simp only [hdata] at hr
      have := congrArg List.length hr
      simp at this

theorem pw_a (l : ValueList) (i : Nat) (p : String) (hwf : wfA l = true) :
    (nodeListA l i p).Pairwise NotDescKey := by
  cases l with
  | nil => simp [nodeListA]
  | cons v rest =>
      rw [wfA, Bool.and_eq_true] at hwf
      rw [nodeListA, List.pairwise_append]
      refine ⟨pw_v v _ hwf.1, pw_a rest (i + 1) p hwf.2, ?_⟩
      intro a ha b hb r hr
      obtain ⟨ta, hta, hda⟩ := ks_v v _ a ha
      obtain ⟨j, tb, hj, htb, hdb⟩ := ks_a rest (i + 1) p b hb
      rw [child_prefix_arr] at hda
      simp only [List.cons_append, List.append_assoc] at hda
      rw [hda, hdb] at hr
      simp only [List.append_assoc] at hr
      have hr' : p.data ++ '/' :: ((Nat.repr i).data ++ ta) =
          p.data ++ '/' :: ((Nat.repr j).data ++ (tb ++ '/' :: r)) := by
        simpa using hr
      obtain ⟨hseg, _⟩ := block_sep p _ _ _ _ hr' (repr_slashFree i) (repr_slashFree j)
        (goodT_shape ta hta) (goodT_append_slash tb r htb)
      have : i = j := nat_repr_inj i j (String.ext hseg)
      omega

theorem pw_f (f : FieldList) (p : String) (hwf : wfF f = true)
    (hdis : distinct (fieldKeys f) = true) :
    (nodeListF f p).Pairwise NotDescKey := by
  cases f with
  | nil => simp [nodeListF]
  | cons k v rest =>
      rw [wfF, Bool.and_eq_true] at hwf
      rw [fieldKeys, distinct, Bool.and_eq_true, Bool.not_eq_true'] at hdis
      rw [nodeListF, List.pairwise_append]
      refine ⟨pw_v v _ hwf.1, pw_f rest p hwf.2 hdis.2, ?_⟩
      intro a ha b hb r hr
      obtain ⟨ta, hta, hda⟩ := ks_v v _ a ha
      obtain ⟨k', tb, hk', htb, hdb⟩ := ks_f rest p b hb
      rw [child_prefix_obj] at hda
      simp only [List.cons_append, List.append_assoc] at hda
      rw [hda, hdb] at hr
      simp only [List.append_assoc] at hr
      have hr' : p.data ++ '/' :: ((escape k).data ++ ta) =
          p.data ++ '/' :: ((escape k').data ++ (tb ++ '/' :: r)) := by
        simpa using hr
      obtain ⟨hseg, _⟩ := block_sep p _ _ _ _ hr' (escape_slashFree k) (escape_slashFree k')
        (goodT_shape ta hta) (goodT_append_slash tb r htb)
      have : k = k' := escape_inj k k' (String.ext hseg)
      subst this
      have : memB k (fieldKeys rest) = true := (memB_iff k (fieldKeys rest)).mpr hk'
      rw [hdis.1] at this
      exact Bool.false_ne_true this

end

mutual

theorem pc_v (v : Value) (p : String) (q : String × Value) (hq : q ∈ nodeList v p)
    (P seg : List Char) (hseg : SlashFree seg) (hdec : q.1.data = P ++ '/' :: seg) :
    q.1.data = p.data ∨ ∃ q', q' ∈ nodeList v p ∧ q'.1.data = P := by
  cases v with
  | null => simp only [nodeList, List.mem_singleton] at hq; exact Or.inl (by rw [hq])
  | bool b => simp only [nodeList, List.mem_singleton] at hq; exact Or.inl (by rw [hq])
  | num n => simp only [nodeList, List.mem_singleton] at hq; exact Or.inl (by rw [hq])
  | str s => simp only [nodeList, List.mem_singleton] at hq; exact Or.inl (by rw [hq])
  | arr l =>
      rw [nodeList] at hq
      rcases List.mem_cons.mp hq with h | h
      · exact Or.inl (by rw [h])
      · rcases pc_a l 0 p q h P seg hseg hdec with h1 | ⟨q', hq', hP⟩
        · exact Or.inr ⟨(p, .arr l), by rw [nodeList]; exact List.mem_cons_self _ _, by rw [h1]⟩
        · exact Or.inr ⟨q', by rw [nodeList]; exact List.mem_cons_of_mem _ hq', hP⟩
  | obj f =>
      rw [nodeList] at hq
      rcases List.mem_cons.mp hq with h | h
      · exact Or.inl (by rw [h])
      · rcases pc_f f p q h P seg hseg hdec with h1 | ⟨q', hq', hP⟩
        · exact Or.inr ⟨(p, .obj f), by rw [nodeList]; exact List.mem_cons_self _ _, by rw [h1]⟩
        · exact Or.inr ⟨q', by rw [nodeList]; exact List.mem_cons_of_mem _ hq', hP⟩

theorem pc_a (l : ValueList) (i : Nat) (p : String) (q : String × Value)
    (hq : q ∈ nodeListA l i p) (P seg : List Char) (hseg : SlashFree seg)
    (hdec : q.1.data = P ++ '/' :: seg) :
    P = p.data ∨ ∃ q', q' ∈ nodeListA l i p ∧ q'.1.data = P := by
  cases l with
  | nil => simp [nodeListA] at hq
  | cons v rest =>
      rw [nodeListA] at hq
      rcases List.mem_append.mp hq with h | h
      · rcases pc_v v _ q h P seg hseg hdec with h1 | ⟨q', hq', hP⟩
        · rw [child_prefix_arr] at h1
          rw [hdec] at h1
          obtain ⟨hP, _⟩ := last_slash_split P seg p.data (Nat.repr i).data h1 hseg
            (repr_slashFree i)
          exact Or.inl hP
        · exact Or.inr ⟨q', by rw [nodeListA]; exact List.mem_append_left _ hq', hP⟩
      · rcases pc_a rest (i + 1) p q h P seg hseg hdec with h1 | ⟨q', hq', hP⟩
        · exact Or.inl h1
        · exact Or.inr ⟨q', by rw [nodeListA]; exact List.mem_append_right _ hq', hP⟩

theorem pc_f (f : FieldList) (p : String) (q : String × Value)
    (hq : q ∈ nodeListF f p) (P seg : List Char) (hseg : SlashFree seg)
    (hdec : q.1.data = P ++ '/' :: seg) :
    P = p.data ∨ ∃ q', q' ∈ nodeListF f p ∧ q'.1.data = P := by
  cases f with
  | nil => simp [nodeListF] at hq
  | cons k v rest =>
      rw [nodeListF] at hq
      rcases List.mem_append.mp hq with h | h
      · rcases pc_v v _ q h P seg hseg hdec with h1 | ⟨q', hq', hP⟩
        · rw [child_prefix_obj] at h1
          rw [hdec] at h1
          obtain ⟨hP, _⟩ := last_slash_split P seg p.data (escape k).data h1 hseg
            (escape_slashFree k)
          exact Or.inl hP
        · exact Or.inr ⟨q', by rw [nodeListF]; exact List.mem_append_left _ hq', hP⟩
      · rcases pc_f rest p q h P seg hseg hdec with h1 | ⟨q', hq', hP⟩
        · exact Or.inl h1
        · exact Or.inr ⟨q', by rw [nodeListF]; exact List.mem_append_right _ hq', hP⟩

end

theorem keys_mapInsert_found (m : ValueMap) (k : String) (v : Value)
    (h : m.any (fun p => p.1 = k) = true) : keysOf (mapInsert m k v) = keysOf m := by
  rw [mapInsert, if_pos h, keysOf, keysOf, List.map_map]
  apply List.map_congr_left
  intro a _
  by_cases ha : a.1 = k
  · simp [ha]
  · simp [ha]

theorem keys_mapInsert_new (m : ValueMap) (k : String) (v : Value)
    (h : ¬ m.any (fun p => p.1 = k) = true) : keysOf (mapInsert m k v) = keysOf m ++ [k] := by
  rw [mapInsert, if_neg h, keysOf, keysOf, List.map_append]
  rfl

theorem any_key_iff (m : ValueMap) (k : String) :
    m.any (fun p => p.1 = k) = true ↔ k ∈ keysOf m := by
  simp [List.any_eq_true, keysOf, List.mem_map]

theorem mem_keys_mapInsert (m : ValueMap) (k k' : String) (v : Value) :
    k' ∈ keysOf (mapInsert m k v) ↔ k' ∈ keysOf m ∨ k' = k := by
  by_cases h : m.any (fun p => p.1 = k) = true
  · rw [keys_mapInsert_found m k v h]
    constructor
    · exact Or.inl
    · rintro (hm | rfl)
      · exact hm
      · exact (any_key_iff m k').mp h
  · rw [keys_mapInsert_new m k v h]
    simp

theorem mem_keys_insertEntries (m : ValueMap) (es : List (String × Value)) (k : String) :
    k ∈ keysOf (insertEntries m es) ↔ k ∈ keysOf m ∨ k ∈ keysOf es := by
  induction es generalizing m with
  | nil => simp [insertEntries, keysOf]
  | cons e rest ih =>
      rw [show insertEntries m (e :: rest) = insertEntries (mapInsert m e.1 e.2) rest from rfl]
      rw [ih, mem_keys_mapInsert]
      simp [keysOf]
      tauto

theorem mapGet_isSome_iff (m : ValueMap) (k : String) :
    (mapGet m k).isSome = true ↔ k ∈ keysOf m := by
  simp [mapGet, List.find?_isSome, keysOf, List.mem_map]

theorem mapGet_replace (m : ValueMap) (k k' : String) (v : Value) (h : k ≠ k') :
    mapGet (m.map (fun p => if p.1 = k' then (k', v) else p)) k = mapGet m k := by
  induction m with
  | nil => rfl
  | cons a rest ih =>
      by_cases ha : a.1 = k'
      · have hak : ¬ a.1 = k := by rw [ha]; exact fun hh => h hh.symm
        simp only [mapGet, List.map_cons, List.find?_cons, if_pos ha] at ih ⊢
        have h1 : (decide ((k', v).1 = k)) = false := by simp [Ne.symm h]
        have h2 : (decide (a.1 = k)) = false := by simp [hak]
        rw [h1, h2]
        exact ih
      · by_cases hak : a.1 = k
        · simp only [mapGet, List.map_cons, List.find?_cons, if_neg ha]
          have h2 : (decide (a.1 = k)) = true := by simp [hak]
          rw [h2]
        · simp only [mapGet, List.map_cons, List.find?_cons, if_neg ha] at ih ⊢
          have h2 : (decide (a.1 = k)) = false := by simp [hak]
          rw [h2]
          exact ih

theorem mapGet_mapInsert_ne (m : ValueMap) (k k' : String) (v : Value) (h : k ≠ k') :
    mapGet (mapInsert m k' v) k = mapGet m k := by
  by_cases hf : m.any (fun p => p.1 = k') = true
  · rw [mapInsert, if_pos hf]
    exact mapGet_replace m k k' v h
  · rw [mapInsert, if_neg hf, mapGet, List.find?_append]
    have hnone : List.find? (fun q => decide (q.1 = k)) [(k', v)] = none := by
      simp [Ne.symm h]
    rw [hnone, Option.or_none]
    rfl

theorem mapGet_insertEntries_not_mem (m : ValueMap) (es : List (String × Value)) (k : String)
    (h : k ∉ keysOf es) : mapGet (insertEntries m es) k = mapGet m k := by
  induction es generalizing m with
  | nil => rfl
  | cons e rest ih =>
      rw [show insertEntries m (e :: rest) = insertEntries (mapInsert m e.1 e.2) rest from rfl]
      have hk : k ∉ keysOf rest := fun hm => h (by simp [keysOf] at hm ⊢; exact Or.inr hm)
      have hke : k ≠ e.1 := fun he => h (by simp [keysOf, he])
      rw [ih _ hk, mapGet_mapInsert_ne m k e.1 e.2 hke]

theorem insertEntries_eq_append (m : ValueMap) (es : List (String × Value))
    (hdisj : ∀ k ∈ keysOf es, k ∉ keysOf m) (hnd : (keysOf es).Nodup) :
    insertEntries m es = m ++ es := by
  induction es generalizing m with
  | nil => simp [insertEntries]
  | cons e rest ih =>
      simp only [keysOf, List.map_cons, List.nodup_cons] at hnd
      have he1 : e.1 ∉ keysOf m := hdisj e.1 (by simp [keysOf])
      have hins : mapInsert m e.1 e.2 = m ++ [e] := by
        rw [mapInsert, if_neg (fun hany => he1 ((any_key_iff m e.1).mp hany))]
      have hstep : insertEntries m (e :: rest) = insertEntries (m ++ [e]) rest := by
        rw [show insertEntries m (e :: rest) = insertEntries (mapInsert m e.1 e.2) rest from rfl,
          hins]
      rw [hstep, ih (m ++ [e]) ?disj hnd.2]
      · simp
      case disj =>
        intro k hk hkm
        rw [keysOf, List.map_append] at hkm
        rcases List.mem_append.mp hkm with h1 | h1
        · exact hdisj k (by simp [keysOf] at hk ⊢; exact Or.inr hk) h1
        · simp at h1
          rw [keysOf] at hk
          rw [h1] at hk
          exact hnd.1 hk

mutual

theorem len_v (v : Value) (p : String) : (nodeList v p).length = nodeCount v := by
  cases v with
  | null => rfl
  | bool b => rfl
  | num n => rfl
  | str s => rfl
  | arr l => simp [nodeList, nodeCount, len_a l 0 p, Nat.add_comm]
  | obj f => simp [nodeList, nodeCount, len_f f p, Nat.add_comm]

theorem len_a (l : ValueList) (i : Nat) (p : String) :
    (nodeListA l i p).length = nodeCountA l := by
  cases l with
  | nil => rfl
  | cons v rest => simp [nodeListA, nodeCountA, len_v v, len_a rest (i + 1) p]

theorem len_f (f : FieldList) (p : String) :
    (nodeListF f p).length = nodeCountF f := by
  cases f with
  | nil => rfl
  | cons k v rest => simp [nodeListF, nodeCountF, len_v v, len_f rest p]

end

theorem keys_entries (v : Value) (p : String) :
    keysOf (entries v p) = (nodeList v p).map (fun q => q.1) := by
  rw [entries, keysOf, List.map_map]
  rfl

theorem flatMap_eq_insertEntries (v : Value) :
    flatMap v = insertEntries [] (entries v "") := by
  rw [flatMap, process_eq]
  rfl

theorem flatMap_eq_entries (v : Value) (h : wfV v = true) : flatMap v = entries v "" := by
  rw [flatMap_eq_insertEntries]
  rw [insertEntries_eq_append]
  · rfl
  · intro k _ hk
    simp [keysOf] at hk
  · rw [keys_entries]
    exact nd_v v "" h

theorem nodeList_head (v : Value) (p : String) :
    ∃ rest, nodeList v p = (p, v) :: rest ∧ ∀ q ∈ rest, ∃ u, q.1.data = p.data ++ '/' :: u := by
  cases v with
  | null => exact ⟨[], rfl, by simp⟩
  | bool b => exact ⟨[], rfl, by simp⟩
  | num n => exact ⟨[], rfl, by simp⟩
  | str s => exact ⟨[], rfl, by simp⟩
  | arr l =>
      refine ⟨nodeListA l 0 p, rfl, ?_⟩
      intro q hq
      obtain ⟨j, t, _, _, hdata⟩ := ks_a l 0 p q hq
      exact ⟨(Nat.repr j).data ++ t, hdata⟩
  | obj f =>
      refine ⟨nodeListF f p, rfl, ?_⟩
      intro q hq
      obtain ⟨k, t, _, _, hdata⟩ := ks_f f p q hq
      exact ⟨(escape k).data ++ t, hdata⟩

theorem mapGet_root (v : Value) : mapGet (flatMap v) "" = some (flatForm v) := by
  rw [flatMap_eq_insertEntries]
  obtain ⟨rest, hcons, hrest⟩ := nodeList_head v ""
  rw [entries, hcons, List.map_cons]
  rw [show insertEntries [] ((("", flatForm v)) :: rest.map (fun q => (q.1, flatForm q.2))) =
      insertEntries (mapInsert [] "" (flatForm v)) (rest.map (fun q => (q.1, flatForm q.2)))
    from rfl]
  rw [mapGet_insertEntries_not_mem]
  · rfl
  · intro hmem
    rw [keysOf, List.map_map, List.mem_map] at hmem
    obtain ⟨q, hq, hq1⟩ := hmem
    obtain ⟨u, hu⟩ := hrest q hq
    simp only [Function.comp_apply] at hq1
    rw [hq1] at hu
    simp at hu

theorem flatForm_flat (v : Value) : FlatVal (flatForm v) := by
  cases v <;> simp [flatForm, FlatVal]

theorem entries_flat (v : Value) (p : String) (q : String × Value) (hq : q ∈ entries v p) :
    FlatVal q.2 := by
  rw [entries, List.mem_map] at hq
  obtain ⟨a, _, ha⟩ := hq
  rw [← ha]
  exact flatForm_flat a.2

theorem entries_pairwise (v : Value) (p : String) (h : wfV v = true) :
    (entries v p).Pairwise NotDescKey := by
  rw [entries, List.pairwise_map]
  have := pw_v v p h
  exact this.imp (fun hab => hab)

/-- Claim C1: for every string `k`, `unescape (escape k) = k`, where `escape`
substitutes `~` → `~0` then `/` → `~1` over the whole string and `unescape`
substitutes `~1` → `/` then `~0` → `~`; in particular this covers the empty
string, strings containing `~` or `/` or both, and strings already
containing the literal sequences `~0` or `~1`. -/
theorem claim_C1_escape_unescape_roundtrip (k : String) : unescape (escape k) = k :=
  unescape_escape k

/-- Claim C2: for every well-formed value, the flat map is exactly the
pre-order node list with each node's value replaced by `flatForm` (the
original scalar/null value copied verbatim, or the empty placeholder `[]`
resp. `{}` for containers), so no entry value is a container with content,
and no earlier entry's pointer lies strictly below a later entry's pointer:
every container's placeholder entry is inserted strictly before every entry
of its descendants. -/
theorem claim_C2_placeholder_entries (v : Value) (h : wfV v = true) :
    flatMap v = (nodeList v "").map (fun q => (q.1, flatForm q.2)) ∧
    (∀ q ∈ flatMap v, FlatVal q.2) ∧
    (flatMap v).Pairwise NotDescKey := by
  have he := flatMap_eq_entries v h
  refine ⟨by rw [he]; rfl, ?_, ?_⟩
  · intro q hq
    rw [he] at hq
    exact entries_flat v "" q hq
  · rw [he]
    exact entries_pairwise v "" h

/-- Witness for claim C2 at a concrete nested object. -/
theorem claim_C2_witness :
    wfV exW = true ∧
    (flatMap exW = (nodeList exW "").map (fun q => (q.1, flatForm q.2)) ∧
      (∀ q ∈ flatMap exW, FlatVal q.2) ∧
      (flatMap exW).Pairwise NotDescKey) :=
  ⟨by decide, claim_C2_placeholder_entries exW (by decide)⟩

/-- Claim C3: for every value `v`, `from_json v` is a JSON object (never an
array or scalar at top level) containing the key `""`, mapped to
`flatForm v`: the original value itself when `v` is null, a Bool, a Number
or a String, and the empty placeholder `[]`/`{}` when `v` is an array or an
object. -/
theorem claim_C3_root_pointer (v : Value) :
    from_json v = Value.obj (toFields (flatMap v)) ∧
    mapGet (flatMap v) "" = some (flatForm v) ∧
    flatForm Value.null = Value.null ∧
    (∀ b, flatForm (Value.bool b) = Value.bool b) ∧
    (∀ n, flatForm (Value.num n) = Value.num n) ∧
    (∀ s, flatForm (Value.str s) = Value.str s) ∧
    (∀ l, flatForm (Value.arr l) = Value.arr .nil) ∧
    (∀ f, flatForm (Value.obj f) = Value.obj .nil) :=
  ⟨rfl, mapGet_root v, rfl, fun _ => rfl, fun _ => rfl, fun _ => rfl, fun _ => rfl, fun _ => rfl⟩

/-- Claim C4: `escape` substitutes `~` → `~0` before `/` → `~1`
(definitionally); performing the substitutions in the reverse order gives a
different, corrupt encoding on `"~/"`; `escape` performs exactly two
replacement passes, so existing `~0`/`~1` sequences are not double-encoded
(`escape "~0" = "~00"`, `escape "~1" = "~01"`); it is total including on the
empty string; and flattening the object with keys `"a/b"`, `"m~n"`, `" "`
mapped to 1, 8, 7 yields `"/a~1b" ↦ 1`, `"/m~0n" ↦ 8`, `"/ " ↦ 7`. -/
theorem claim_C4_escape_order :
    (∀ s : String, escape s = ⟨replaceC '/' ['~', '1'] (replaceC '~' ['~', '0'] s.data)⟩) ∧
    escapeRevOrder "~/" ≠ escape "~/" ∧
    unescape (escapeRevOrder "~/") ≠ "~/" ∧
    unescape (escape "~/") = "~/" ∧
    escape "~" = "~0" ∧ escape "~0" = "~00" ∧ escape "~1" = "~01" ∧ escape "" = "" ∧
    mapGet (flatMap exC) "/a~1b" = some (.num 1) ∧
    mapGet (flatMap exC) "/m~0n" = some (.num 8) ∧
    mapGet (flatMap exC) "/ " = some (.num 7) := by
  refine ⟨fun s => rfl, ?_, ?_, ?_, ?_, ?_, ?_, ?_, ?_, ?_, ?_⟩ <;> decide

/-- Claim C5: each array element at index `i` extends its parent's pointer
with the segment `/<i>` (decimal `Nat.repr`, no escaping, indices in order
from 0) and each object member with key `k` extends it with `/escape k` in
member order; the empty member key yields the segment `/`; and concretely
`from_json [true, 42] = {"": [], "/0": true, "/1": 42}`. -/
theorem claim_C5_segments :
    from_json exB = Value.obj
      (.cons "" (.arr .nil) (.cons "/0" (.bool true) (.cons "/1" (.num 42) .nil))) ∧
    (∀ v rest (idx : Nat) (p : String), nodeListA (.cons v rest) idx p =
      nodeList v (p ++ "/" ++ toString idx) ++ nodeListA rest (idx + 1) p) ∧
    (∀ idx : Nat, ("/" ++ toString idx : String) = "/" ++ Nat.repr idx) ∧
    (∀ k v rest (p : String), nodeListF (.cons k v rest) p =
      nodeList v (p ++ "/" ++ escape k) ++ nodeListF rest p) ∧
    (∀ v rest (p : String), nodeListF (.cons "" v rest) p =
      nodeList v (p ++ "/") ++ nodeListF rest p) := by
  refine ⟨by decide, fun v rest idx p => rfl, fun idx => rfl, fun k v rest p => rfl, ?_⟩
  intro v rest p
  rw [nodeListF, show escape "" = "" from rfl, String.append_empty]

/-- Claim C6: for every well-formed value the pointer keys of the flat map
are pairwise distinct, and the accumulator is exactly the entry list in
insertion order (`flatMap v = entries v ""`), i.e. every insertion appended
a fresh key and no entry was ever removed or overwritten. -/
theorem claim_C6_distinct_pointers (v : Value) (h : wfV v = true) :
    (keysOf (flatMap v)).Nodup ∧ flatMap v = entries v "" := by
  have he := flatMap_eq_entries v h
  refine ⟨?_, he⟩
  rw [he, keys_entries]
  exact nd_v v "" h

/-- Witness for claim C6 at a concrete nested object. -/
theorem claim_C6_witness :
    wfV exW = true ∧ ((keysOf (flatMap exW)).Nodup ∧ flatMap exW = entries exW "") :=
  ⟨by decide, claim_C6_distinct_pointers exW (by decide)⟩

/-- Claim C7: ancestor presence — whenever a key of the form `P ++ "/" ++
seg` with `seg` slash-free is present in the flat map of `v`, the parent
pointer `P` is present as well. -/
theorem claim_C7_ancestor_presence (v : Value) (P seg : String) (hseg : '/' ∉ seg.data)
    (hmem : (mapGet (flatMap v) (P ++ "/" ++ seg)).isSome = true) :
    (mapGet (flatMap v) P).isSome = true := by
  rw [mapGet_isSome_iff, flatMap_eq_insertEntries, mem_keys_insertEntries] at hmem
  rcases hmem with hmem | hmem
  · simp [keysOf] at hmem
  rw [keys_entries, List.mem_map] at hmem
  obtain ⟨q, hq, hq1⟩ := hmem
  have hdec : q.1.data = P.data ++ '/' :: seg.data := by
    rw [hq1]
    simp
  rcases pc_v v "" q hq P.data seg.data hseg hdec with h1 | ⟨q', hq', hP⟩
  · rw [hdec] at h1
    have := congrArg List.length h1
    simp at this
  · rw [mapGet_isSome_iff, flatMap_eq_insertEntries, mem_keys_insertEntries, keys_entries]
    right
    rw [List.mem_map]
    exact ⟨q', hq', String.ext hP⟩

/-- Witness for claim C7: `"/a/b"` is present for a nested object, hence so
is `"/a"`. -/
theorem claim_C7_witness :
    ('/' ∉ ("b" : String).data ∧
      (mapGet (flatMap (.obj (.cons "a" (.obj (.cons "b" (.num 1) .nil)) .nil)))
        ("/a" ++ "/" ++ "b")).isSome = true) ∧
    (mapGet (flatMap (.obj (.cons "a" (.obj (.cons "b" (.num 1) .nil)) .nil))) "/a").isSome
      = true :=
  ⟨⟨by decide, by decide⟩,
    claim_C7_ancestor_presence (.obj (.cons "a" (.obj (.cons "b" (.num 1) .nil)) .nil))
      "/a" "b" (by decide) (by decide)⟩

/-- Claim C8: `from_json` is a total function returning an object for every
value; the recursive traversal is a total function over the finite `Value`
trees by construction; the route stack is empty again after the top-level
visit, and the final pop on the already-empty route (`popRoute []`) is a
safe no-op; in general `process` returns the caller's route with the last
segment popped. -/
theorem claim_C8_totality (v : Value) (route : PointerMap) (target : ValueMap) :
    (∃ m, from_json v = Value.obj m) ∧ (process v [] target).1 = [] ∧ popRoute [] = [] ∧
    (process v route target).1 = popRoute route := by
  refine ⟨⟨toFields (flatMap v), rfl⟩, ?_, rfl, ?_⟩
  · rw [process_eq]
    rfl
  · rw [process_eq]

/-- Claim C9: for any parser whose success is exactly well-formedness of the
input text, `from_str` succeeds exactly on well-formed text; a parse error
is surfaced unmodified with no flattened output; on success the result is
the complete flat map `from_json v` of the parsed value; and on
non-well-formed text the result is an error. -/
theorem claim_C9_from_str_errors {ε : Type} (parse : String → Except ε Value)
    (WellFormed : String → Prop) (hparse : ∀ u, (parse u).isOk = true ↔ WellFormed u)
    (s : String) :
    ((from_str parse s).isOk = true ↔ WellFormed s) ∧
    (∀ e, parse s = .error e → from_str parse s = Except.error e) ∧
    (∀ v, parse s = .ok v → from_str parse s = Except.ok (from_json v)) ∧
    (¬ WellFormed s → ∃ e, from_str parse s = Except.error e) := by
  have h2 : ∀ e, parse s = .error e → from_str parse s = Except.error e := by
    intro e he
    simp [from_str, he, Except.map]
  have h3 : ∀ v, parse s = .ok v → from_str parse s = Except.ok (from_json v) := by
    intro v hv
    simp [from_str, hv, Except.map]
  have h1 : (from_str parse s).isOk = true ↔ WellFormed s := by
    rw [← hparse s]
    cases hp : parse s with
    | error e => rw [h2 e hp]
    | ok v =>
        rw [h3 v hp]
        simp [Except.isOk, Except.toBool]
  refine ⟨h1, h2, h3, ?_⟩
  intro hn
  cases hp : parse s with
  | error e => exact ⟨e, h2 e hp⟩
  | ok v =>
      refine absurd ((hparse s).mp ?_) hn
      rw [hp]
      rfl

/-- Witness for claim C9 with the toy parser: `from_str parseToy "not json"`
is a parse error. -/
theorem claim_C9_witness :
    (∀ u, (parseToy u).isOk = true ↔ u = "null") ∧
    (((from_str parseToy "not json").isOk = true ↔ "not json" = "null") ∧
      (∀ e, parseToy "not json" = .error e → from_str parseToy "not json" = Except.error e) ∧
      (∀ v, parseToy "not json" = .ok v →
        from_str parseToy "not json" = Except.ok (from_json v)) ∧
      (¬ "not json" = "null" → ∃ e, from_str parseToy "not json" = Except.error e)) := by
  have h0 : ∀ u, (parseToy u).isOk = true ↔ u = "null" := by
    intro u
    by_cases h : u = "null" <;> simp [parseToy, h, Except.isOk, Except.toBool]
  exact ⟨h0, claim_C9_from_str_errors parseToy (fun u => u = "null") h0 "not json"⟩

/-- Claim C10: for every well-formed value the flat map has exactly as many
entries as the tree has nodes, and an empty array or object node
contributes exactly one entry and no descendants. -/
theorem claim_C10_entry_count (v : Value) (h : wfV v = true) :
    (flatMap v).length = nodeCount v ∧ from_json v = Value.obj (toFields (flatMap v)) ∧
    (∀ p : String, nodeList (Value.arr .nil) p = [(p, Value.arr .nil)]) ∧
    (∀ p : String, nodeList (Value.obj .nil) p = [(p, Value.obj .nil)]) := by
  refine ⟨?_, rfl, fun p => rfl, fun p => rfl⟩
  rw [flatMap_eq_entries v h, entries, List.length_map, len_v]

/-- Witness for claim C10 at a concrete nested object. -/
theorem claim_C10_witness :
    wfV exW = true ∧
    ((flatMap exW).length = nodeCount exW ∧
      from_json exW = Value.obj (toFields (flatMap exW)) ∧
      (∀ p : String, nodeList (Value.arr .nil) p = [(p, Value.arr .nil)]) ∧
      (∀ p : String, nodeList (Value.obj .nil) p = [(p, Value.obj .nil)])) :=
  ⟨by decide, claim_C10_entry_count exW (by decide)⟩
